import Mathlib

/-!
Shallow embedding of the ActiveNow presence gateway (Rust sources under
`src/`): the per-room presence tracker (`src/presence.rs`), the metadata
store (`src/meta.rs`), the origin-admission policy and WebSocket session
frame handling (`src/gateway.rs`), the active-rooms HTTP endpoint
(`src/api.rs`) and the `ALLOWED_ORIGINS` parsing (`src/config.rs`).

Machine strings are modelled as `List Char` (`Str`); `std::time::Instant`
and `Duration` are modelled as natural numbers of time units, with
`Instant::duration_since` as truncated subtraction (both saturate at
zero).  Hash maps (`HashMap`, `DashMap`, redis hashes) are modelled as
association lists with hash-map access semantics.
-/

namespace ActiveNow

/-- Byte strings of the Rust code, modelled as lists of characters. -/
abbrev Str := List Char

/-- Hash-map lookup (`HashMap::get` / redis `HGET`) on an association list. -/
def hget {α : Type} (k : Str) : List (Str × α) → Option α
  | [] => none
  | p :: m => if p.1 = k then some p.2 else hget k m

/-- Key-membership test (`HashMap::contains_key` / redis `HEXISTS`). -/
def hasKey {α : Type} (k : Str) : List (Str × α) → Bool
  | [] => false
  | p :: m => if p.1 = k then true else hasKey k m

/-- In-place update of the value stored under a key, as done through Rust
`HashMap::get_mut` / `DashMap::get_mut`: entries with other keys are kept
untouched, and nothing happens when the key is absent. -/
def modifyValue {α : Type} (k : Str) (f : α → α) :
    List (Str × α) → List (Str × α)
  | [] => []
  | p :: m => (if p.1 = k then (p.1, f p.2) else p) :: modifyValue k f m

/-- Hash-map store (`HashMap::insert` / redis `HSET`): overwrite the value
when the key is present, otherwise add a fresh entry. -/
def hset {α : Type} (k : Str) (v : α) (m : List (Str × α)) : List (Str × α) :=
  if hasKey k m then modifyValue k (fun _ => v) m else m ++ [(k, v)]

/-- Redis `HINCRBY`: a missing field counts as `0` before the increment. -/
def hincr (k : Str) (d : Int) (m : List (Str × Int)) : List (Str × Int) :=
  hset k ((hget k m).getD 0 + d) m

/-! ## Presence rooms (`src/presence.rs`) -/

/-- Rust `Instant::duration_since`, which yields a zero duration when the
other instant is later; on `Nat` time-stamps this is truncated subtraction. -/
def durationSince (now earlier : Nat) : Nat := now - earlier

/-- One presence room (`struct Room`): the `members` map from connection
identity (sid) to last-seen instant, and the value currently held by the
`count_watch` latch channel (`count_tx`/`count_rx`). -/
structure RoomState where
  members : List (Str × Nat)
  watch : Nat
deriving DecidableEq

/-- Number of effective members, `Room::effective_count`: members whose
`now.duration_since(last) < ttl`. -/
def effectiveCount (now ttl : Nat) (members : List (Str × Nat)) : Nat :=
  (members.filter (fun p => durationSince now p.2 < ttl)).length

namespace Room

/-- `Room::send_count_if_diff`: publish on the watch channel only when the
new count differs from the last published value. -/
def sendCountIfDiff (st : RoomState) (count : Nat) : RoomState :=
  if st.watch ≠ count then { st with watch := count } else st

/-- `Room::update_count_if_changed`: recompute the effective count, publish
it when it differs from the last published value, and return it. -/
def updateCountIfChanged (st : RoomState) (now ttl : Nat) : RoomState × Nat :=
  let count := effectiveCount now ttl st.members
  (sendCountIfDiff st count, count)

/-- `Room::join`: insert (or overwrite) `members[sid] = now`, then
recompute and conditionally republish the effective count, returning it. -/
def join (st : RoomState) (sid : Str) (now ttl : Nat) : RoomState × Nat :=
  let members := (sid, now) :: st.members.filter (fun p => ¬ p.1 = sid)
  updateCountIfChanged { st with members := members } now ttl

/-- `Room::hb`: when `sid` is present set its last-seen to `now`; the
count channel is not touched. -/
def hb (st : RoomState) (sid : Str) (now : Nat) : RoomState :=
  { st with members := modifyValue sid (fun _ => now) st.members }

/-- `Room::leave`: remove `sid`, then recompute and conditionally
republish the effective count, returning it. -/
def leave (st : RoomState) (sid : Str) (now ttl : Nat) : RoomState × Nat :=
  let members := st.members.filter (fun p => ¬ p.1 = sid)
  updateCountIfChanged { st with members := members } now ttl

/-- `Room::cleanup`: retain only members with `now.duration_since(last) <
ttl`; when the membership shrank, publish the new effective count if it
differs from the last published value; return the new effective count. -/
def cleanup (st : RoomState) (now ttl : Nat) : RoomState × Nat :=
  let retained := st.members.filter (fun p => durationSince now p.2 < ttl)
  let changed := retained.length ≠ st.members.length
  let st1 : RoomState := { st with members := retained }
  let newCount := effectiveCount now ttl st1.members
  (if changed then sendCountIfDiff st1 newCount else st1, newCount)

end Room

/-- `Rooms::snapshot_counts`: per-room active counts (via
`Room::active_count`, which is `effective_count`), keeping only rooms
whose count is positive.  The registry is modelled as an association list
from room name to the room's members map. -/
def snapshot_counts (rooms : List (Str × List (Str × Nat))) (now ttl : Nat) :
    List (Str × Nat) :=
  (rooms.map (fun r => (r.1, effectiveCount now ttl r.2))).filter
    (fun p => 0 < p.2)

/-! ## Active-rooms endpoint (`src/api.rs`) -/

/-- Response element of `GET /v1/rooms/active` (`struct TopRoom`). -/
structure TopRoom where
  room : Str
  count : Nat
  path : Str
  title : Str
deriving DecidableEq

/-- Sort order used by `top_active_rooms`:
`list.sort_by_key(|(name, c)| (Reverse(*c), name.clone()))`, i.e. count
descending, then room name ascending. -/
def byCountDescNameAsc (a b : Str × Nat) : Prop :=
  b.2 < a.2 ∨ (a.2 = b.2 ∧ a.1 ≤ b.1)

instance : DecidableRel byCountDescNameAsc := fun a b =>
  inferInstanceAs (Decidable (b.2 < a.2 ∨ (a.2 = b.2 ∧ a.1 ≤ b.1)))

instance : IsTotal (Str × Nat) byCountDescNameAsc where
  total a b := by
    rcases Nat.lt_trichotomy a.2 b.2 with h | h | h
    · exact Or.inr (Or.inl h)
    · rcases le_total a.1 b.1 with h1 | h1
      · exact Or.inl (Or.inr ⟨h, h1⟩)
      · exact Or.inr (Or.inr ⟨h.symm, h1⟩)
    · exact Or.inl (Or.inl h)

instance : IsTrans (Str × Nat) byCountDescNameAsc where
  trans a b c hab hbc := by
    rcases hab with h1 | ⟨h1, h1'⟩ <;> rcases hbc with h2 | ⟨h2, h2'⟩
    · exact Or.inl (lt_trans h2 h1)
    · exact Or.inl (h2 ▸ h1)
    · exact Or.inl (h1 ▸ h2)
    · exact Or.inr ⟨h1.trans h2, le_trans h1' h2'⟩

/-- The same order on response elements: count descending, then room name
ascending. -/
def topRoomOrd (a b : TopRoom) : Prop :=
  b.count < a.count ∨ (a.count = b.count ∧ a.room ≤ b.room)

/-- `api::top_active_rooms`: `limit` defaults to 10 and is capped at 100;
the snapshot is sorted by count descending then room ascending, truncated
to `limit`, and each entry is emitted with `path` and `title` equal to the
room name. -/
def top_active_rooms (limitQ : Option Nat)
    (rooms : List (Str × List (Str × Nat))) (now ttl : Nat) : List TopRoom :=
  let limit := min (limitQ.getD 10) 100
  let sorted := List.insertionSort byCountDescNameAsc
    (snapshot_counts rooms now ttl)
  (sorted.take limit).map
    (fun p => { room := p.1, count := p.2, path := p.1, title := p.1 })

/-! ## Metadata store (`src/meta.rs`) -/

/-- `struct SocketMetadata`. -/
structure SocketMetadata where
  identity : Str
  session_id : Str
  connected_at_ms : Nat
  updated_at_ms : Nat
  room_joined_at : List (Str × Nat)
deriving DecidableEq

/-- State of `MemoryMetaStore`: identity → metadata record. -/
abbrev MetaMap := List (Str × SocketMetadata)

namespace MemoryMetaStore

/-- `MemoryMetaStore::set_session_id`: when `sid` has a record, update its
`session_id` and `updated_at_ms`; otherwise do nothing. -/
def set_session_id (m : MetaMap) (sid : Str) (session : Str) (now_ms : Nat) :
    MetaMap :=
  modifyValue sid
    (fun r => { r with session_id := session, updated_at_ms := now_ms }) m

/-- `MemoryMetaStore::unique_session_count`: the number of distinct
`session_id` values across all records (the Rust code inserts every
`session_id` into a `HashSet` and returns its size). -/
def unique_session_count (m : MetaMap) : Nat :=
  ((m.map (fun p => p.2.session_id)).toFinset).card

end MemoryMetaStore

/-! ## Daily online stats (`RedisMetaStore::update_online_stats`).

The redis connection is modelled as two in-memory hashes, matching the
spec's description of the external key/value store as an opaque hash
backend: `max_online_count` (date → max) and `max_online_count:total`
(date → i64 counter).  The `today()` date key is passed as a parameter. -/

/-- The two per-day statistics hashes kept in redis. -/
structure OnlineStats where
  max_online : List (Str × Nat)
  total_connects : List (Str × Int)
deriving DecidableEq

/-- `RedisMetaStore::update_online_stats`: read `max_online_count[day]`;
write `online` there when it is absent or smaller than `online`; then
`HINCRBY max_online_count:total day 1`. -/
def update_online_stats (st : OnlineStats) (day : Str) (online : Nat) :
    OnlineStats :=
  let mo :=
    match hget day st.max_online with
    | some cur => if cur < online then hset day online st.max_online
                  else st.max_online
    | none => hset day online st.max_online
  { max_online := mo, total_connects := hincr day 1 st.total_connects }

/-! ## String primitives used by the gateway.

Rust `str` operations, re-implemented over `Str = List Char` so that they
are kernel-computable.  All inputs the code meets here are ASCII. -/

/-- Rust `str::trim`: strip leading and trailing whitespace. -/
def trim (s : Str) : Str :=
  ((s.dropWhile Char.isWhitespace).reverse.dropWhile Char.isWhitespace).reverse

/-- Rust `str::to_ascii_lowercase` (on ASCII input `Char.toLower` agrees
with ASCII lowercasing). -/
def toLowerS (s : Str) : Str := s.map Char.toLower

/-- Rust `str::trim_end_matches('/')`: strip all trailing slashes. -/
def trim_end_slashes (s : Str) : Str :=
  (s.reverse.dropWhile (fun c => c = '/')).reverse

/-- Rust `str::split_once(sep)`: split at the first occurrence of `sep`,
returning the parts before and after it, or `none` when `sep` does not
occur. -/
def split_once (sep : Str) : Str → Option (Str × Str)
  | [] => if sep = [] then some ([], []) else none
  | c :: cs =>
    if sep.isPrefixOf (c :: cs) then some ([], (c :: cs).drop sep.length)
    else
      match split_once sep cs with
      | some (l, r) => some (c :: l, r)
      | none => none

/-- Rust `str::parse::<u16>` restricted to decimal digits: the numeric
value of an all-digit, non-empty string. -/
def digitsToNat : Str → Option Nat
  | [] => none
  | cs =>
    if cs.all Char.isDigit then
      some (cs.foldl (fun acc c => acc * 10 + (c.toNat - 48)) 0)
    else none

/-! ## Origin policy (`src/gateway.rs`, `origin_allowed`) -/

/-- Result of `url::Url::parse` as the gateway uses it: scheme, host and
explicit port.  Modelled from the `url` crate (an external collaborator)
for `scheme://host[:port][/path]` origins: scheme and host are lowercased
(the crate normalizes them; the gateway lowercases again), and the port
must be a valid `u16`. -/
structure UrlParts where
  scheme : Str
  host : Str
  port : Option Nat
deriving DecidableEq

/-- `url::Url::port_or_known_default`: known default ports per scheme. -/
def known_default_port (scheme : Str) : Option Nat :=
  if scheme = "http".data then some 80
  else if scheme = "https".data then some 443
  else if scheme = "ws".data then some 80
  else if scheme = "wss".data then some 443
  else if scheme = "ftp".data then some 21
  else none

/-- Modelled `url::Url::parse` for `scheme://host[:port][/path]`. -/
def parse_url (s : Str) : Option UrlParts :=
  match split_once "://".data s with
  | none => none
  | some (sch, rest) =>
    if sch.isEmpty then none
    else
      let authority := rest.takeWhile (fun c => ¬ c = '/')
      match split_once [':'] authority with
      | none =>
        if authority.isEmpty then none
        else some ⟨toLowerS sch, toLowerS authority, none⟩
      | some (h, p) =>
        if h.isEmpty then none
        else
          match digitsToNat p with
          | some pn =>
            if pn < 65536 then some ⟨toLowerS sch, toLowerS h, some pn⟩
            else none
          | none => none

/-- The explicit port, or the scheme's known default. -/
def port_or_known_default (u : UrlParts) : Option Nat :=
  match u.port with
  | some p => some p
  | none => known_default_port u.scheme

/-- Canonical form of an origin, standing for the canonical string
`format!("{}://{}:{}", scheme, host, port)` (resp. without the port) that
`origin_allowed` builds: for parseable origins, equality of the canonical
strings coincides with componentwise equality of this triple. -/
structure CanonOrigin where
  scheme : Str
  host : Str
  port : Option Nat
deriving DecidableEq

/-- One iteration of the whitelist loop in `origin_allowed`, deciding
whether entry `item` admits the request origin given its (lowercased)
host, resolved port and canonical form.  The final fallback of the Rust
code compares the entry with the canonical origin string; at that point
the entry contains no colon while the canonical string always contains
`"://"`, so the comparison is always false and is modelled as `false`. -/
def origin_item_matches (host : Str) (port : Option Nat)
    (canonical : CanonOrigin) (item : Str) : Bool :=
  let e := toLowerS (trim_end_slashes (trim item))
  if e.isEmpty then false
  else if ("http://".data.isPrefixOf e ∨ "https://".data.isPrefixOf e) then
    match parse_url e with
    | some u =>
      (CanonOrigin.mk u.scheme u.host (port_or_known_default u)) = canonical
    | none => false
  else if ("*.".data.isPrefixOf e ∨ ".".data.isPrefixOf e) then
    let sfx0 := if "*.".data.isPrefixOf e then e.drop 2 else e.drop 1
    let sfx := sfx0.dropWhile (fun c => c = '.')
    host = sfx ∨ ('.' :: sfx).isSuffixOf host
  else if e.contains ':' then
    match split_once [':'] e with
    | some (eh, ep) =>
      if eh = host then
        match digitsToNat ep with
        | some epn =>
          if epn < 65536 then
            match port with
            | some p => p = epn
            | none => false
          else false
        | none => false
      else false
    | none => false
  else
    e = host

/-- `gateway::origin_allowed`: `'*'` (after trimming) anywhere in the
whitelist admits everything; an absent, empty or unparseable Origin header
is rejected; otherwise the origin is normalized and each whitelist entry
is tried in turn. -/
def origin_allowed (origin : Option Str) (whitelist : List Str) : Bool :=
  if whitelist.any (fun s => trim s = "*".data) then true
  else
    match origin with
    | none => false
    | some v =>
      if (trim v).isEmpty then false
      else
        match parse_url (trim v) with
        | none => false
        | some parsed =>
          let host := toLowerS parsed.host
          let port := port_or_known_default parsed
          let canonical : CanonOrigin :=
            ⟨toLowerS parsed.scheme, host, port⟩
          whitelist.any (origin_item_matches host port canonical)

/-! ## Upgrade admission (`src/gateway.rs`, `ws_route`) and
`ALLOWED_ORIGINS` parsing (`src/config.rs`) -/

/-- `gateway::is_valid_room`: non-empty, at most 256 bytes, characters
from `[A-Za-z0-9_./:@-]`.  The character set is ASCII, so the byte length
used by the Rust code agrees with the character count used here. -/
def is_valid_room (room : Str) : Bool :=
  if room.isEmpty ∨ 256 < room.length then false
  else room.all (fun c =>
    c.isAlphanum ∨ c = '_' ∨ c = '.' ∨ c = '/' ∨ c = ':' ∨ c = '@' ∨ c = '-')

/-- Outcome of the HTTP part of `ws_route`. -/
inductive WsRouteDecision where
  | badRequest
  | forbidden
  | upgrade
deriving DecidableEq

/-- `gateway::ws_route` up to the upgrade: 400 on an invalid room name,
then 403 when a non-empty whitelist is configured and `origin_allowed`
rejects, otherwise upgrade. -/
def ws_route (room : Str) (origin : Option Str)
    (whitelist : Option (List Str)) : WsRouteDecision :=
  if ¬ is_valid_room room then WsRouteDecision.badRequest
  else
    match whitelist with
    | some wl =>
      if ¬ wl.isEmpty ∧ ¬ origin_allowed origin wl then
        WsRouteDecision.forbidden
      else WsRouteDecision.upgrade
    | none => WsRouteDecision.upgrade

/-- Rust `str::split(',')` (retains empty pieces). -/
def splitCharAux (c : Char) : Str → Str → List Str
  | [], acc => [acc.reverse]
  | x :: xs, acc =>
    if x = c then acc.reverse :: splitCharAux c xs []
    else splitCharAux c xs (x :: acc)

/-- Rust `str::split(',')` on the whole string. -/
def splitChar (c : Char) (s : Str) : List Str := splitCharAux c s []

/-- `Config::from_env` handling of `ALLOWED_ORIGINS`: split the raw value
on commas, trim every piece, drop empty pieces; `none` when nothing
remains. -/
def parse_allowed_origins (raw : Str) : Option (List Str) :=
  let items := ((splitChar ',' raw).map trim).filter (fun s => ¬ s.isEmpty)
  if items.isEmpty then none else some items

/-! ## Room-variant session inbound frames (`src/gateway.rs`) -/

/-- JSON values, as far as the inbound frames need them. -/
inductive JVal where
  | jstr : Str → JVal
  | jnum : Int → JVal
  | jbool : Bool → JVal
  | jnull : JVal
deriving DecidableEq

/-- A parsed JSON object: field name → value. -/
abbrev JObj := List (Str × JVal)

/-- Lookup of a JSON object field. -/
def jget (o : JObj) (k : Str) : Option JVal := hget k o

/-- `enum InMsg` of the gateway. -/
inductive InMsg where
  | hb : InMsg
  | updateSid : Str → InMsg
deriving DecidableEq

/-- Serde deserialization of `InMsg`, modelled from its attributes:
internally tagged by the `type` field, `rename_all = "lowercase"` on the
variants (so `Hb` is tagged `hb` and `UpdateSid` is tagged `updatesid`),
and `rename_all = "camelCase"` on the `UpdateSid` fields (so `session_id`
is read from `sessionId`).  Tag matching is exact, so any other tag text
fails to deserialize. -/
def parse_in_msg (o : JObj) : Option InMsg :=
  match jget o "type".data with
  | some (JVal.jstr t) =>
    if t = "hb".data then some InMsg.hb
    else if t = "updatesid".data then
      match jget o "sessionId".data with
      | some (JVal.jstr s) => some (InMsg.updateSid s)
      | _ => none
    else none
  | _ => none

/-- State a room-variant session can touch when handling an inbound text
frame: its room, the global metadata store (memory backend) and the value
held by the `online_tx` watch channel. -/
structure SessionState where
  room : RoomState
  meta : MetaMap
  online : Nat
deriving DecidableEq

/-- The `Message::Text` arm of the `handle_ws` select loop: a frame that
deserializes to `InMsg::Hb` heartbeats the room with a fresh instant
`nowi`; a frame that deserializes to `InMsg::UpdateSid` calls
`meta.set_session_id` (with the connect-time wall clock `now_ms`),
recomputes `meta.unique_session_count` and sends it on `online_tx`; any
other text frame is ignored. -/
def handle_text_frame (sid : Str) (now_ms nowi : Nat) (st : SessionState)
    (o : JObj) : SessionState :=
  match parse_in_msg o with
  | some InMsg.hb => { st with room := Room.hb st.room sid nowi }
  | some (InMsg.updateSid s) =>
    let meta := MemoryMetaStore.set_session_id st.meta sid s now_ms
    { st with meta := meta,
              online := MemoryMetaStore.unique_session_count meta }
  | none => st

/-- Count field of the hello frame: `handle_ws` sends
`OutMsg::Hello { count: _count }` where `_count` is the value returned by
`room.join`. -/
def hello_count (st : RoomState) (sid : Str) (now ttl : Nat) : Nat :=
  (Room.join st sid now ttl).2

/-! ## Helper lemmas about the hash-map model -/

theorem hget_modifyValue_self {α : Type} (k : Str) (f : α → α)
    (m : List (Str × α)) :
    hget k (modifyValue k f m) = (hget k m).map f := by
  induction m with
  | nil => rfl
  | cons p m ih =>
    by_cases h : p.1 = k
    · simp [modifyValue, hget, h]
    · simp [modifyValue, hget, h]
      exact ih

theorem hget_modifyValue_ne {α : Type} {k k' : Str} (h : k' ≠ k)
    (f : α → α) (m : List (Str × α)) :
    hget k' (modifyValue k f m) = hget k' m := by
  induction m with
  | nil => rfl
  | cons p m ih =>
    by_cases hp : p.1 = k
    · have hp' : ¬ p.1 = k' := fun hc => h (hc ▸ hp)
      simp only [modifyValue, if_pos hp, hget, if_neg hp']
      exact ih
    · by_cases hp' : p.1 = k'
      · simp only [modifyValue, if_neg hp, hget, if_pos hp']
      · simp only [modifyValue, if_neg hp, hget, if_neg hp']
        exact ih

theorem modifyValue_of_hget_none {α : Type} {k : Str} {m : List (Str × α)}
    (h : hget k m = none) (f : α → α) : modifyValue k f m = m := by
  induction m with
  | nil => rfl
  | cons p m ih =>
    by_cases hp : p.1 = k
    · simp [hget, hp] at h
    · simp only [hget, if_neg hp] at h
      simp only [modifyValue, if_neg hp]
      rw [ih h]

theorem hasKey_true_exists {α : Type} {k : Str} {m : List (Str × α)}
    (h : hasKey k m = true) : ∃ w, hget k m = some w := by
  induction m with
  | nil => simp [hasKey] at h
  | cons p m ih =>
    by_cases hp : p.1 = k
    · exact ⟨p.2, by simp [hget, hp]⟩
    · simp only [hasKey, if_neg hp] at h
      obtain ⟨w, hw⟩ := ih h
      exact ⟨w, by simp only [hget, if_neg hp]; exact hw⟩

theorem hget_append_of_hasKey_false {α : Type} (k : Str)
    (l : List (Str × α)) :
    ∀ m, hasKey k m = false → hget k (m ++ l) = hget k l := by
  intro m
  induction m with
  | nil => intro _; rfl
  | cons p m ih =>
    intro h
    by_cases hp : p.1 = k
    · simp [hasKey, hp] at h
    · simp only [hasKey, if_neg hp] at h
      simp only [List.cons_append, hget, if_neg hp]
      exact ih h

theorem hget_hset_self {α : Type} (k : Str) (v : α) (m : List (Str × α)) :
    hget k (hset k v m) = some v := by
  unfold hset
  by_cases h : hasKey k m = true
  · rw [if_pos h, hget_modifyValue_self]
    obtain ⟨w, hw⟩ := hasKey_true_exists h
    rw [hw]
    rfl
  · rw [if_neg h, hget_append_of_hasKey_false k _ m (Bool.eq_false_iff.mpr h)]
    simp [hget]

theorem hget_mem {α : Type} {k : Str} {v : α} {m : List (Str × α)}
    (h : hget k m = some v) : (k, v) ∈ m := by
  induction m with
  | nil => simp [hget] at h
  | cons p m ih =>
    obtain ⟨a, b⟩ := p
    by_cases hp : a = k
    · simp only [hget, if_pos hp] at h
      have hb : b = v := Option.some.inj h
      subst hp
      subst hb
      exact List.mem_cons_self _ _
    · simp only [hget, if_neg hp] at h
      exact List.mem_cons_of_mem _ (ih h)

theorem modifyValue_const_val {α : Type} {k : Str} {v : α} :
    ∀ (m : List (Str × α)), ∀ q ∈ modifyValue k (fun _ => v) m,
      q.1 = k → q.2 = v := by
  intro m
  induction m with
  | nil => intro q hq; simp [modifyValue] at hq
  | cons p m ih =>
    intro q hq hk
    rcases List.mem_cons.mp hq with rfl | hq
    · by_cases hp : p.1 = k
      · simp [if_pos hp]
      · rw [if_neg hp] at hk ⊢
        exact absurd hk hp
    · exact ih q hq hk

theorem hget_filter {α : Type} {k : Str} {v : α} {p : Str × α → Bool} :
    ∀ (m : List (Str × α)), (∀ q ∈ m, q.1 = k → q.2 = v) →
      (∃ q ∈ m, q.1 = k ∧ p q = true) →
      hget k (m.filter p) = some v := by
  intro m
  induction m with
  | nil =>
    intro _ hex
    rcases hex with ⟨w, hw, _⟩
    exact absurd hw (List.not_mem_nil w)
  | cons q m ih =>
    intro hval hex
    have hval' : ∀ r ∈ m, r.1 = k → r.2 = v :=
      fun r hr => hval r (List.mem_cons_of_mem _ hr)
    by_cases hpq : p q = true
    · rw [List.filter_cons_of_pos hpq]
      by_cases hq : q.1 = k
      · have : q.2 = v := hval q (List.mem_cons_self q m) hq
        simp [hget, hq, this]
      · simp only [hget, if_neg hq]
        rcases hex with ⟨w, hw, hwk, hwp⟩
        rcases List.mem_cons.mp hw with rfl | hw
        · exact absurd hwk hq
        · exact ih hval' ⟨w, hw, hwk, hwp⟩
    · rw [List.filter_cons_of_neg (by simpa using hpq)]
      rcases hex with ⟨w, hw, hwk, hwp⟩
      rcases List.mem_cons.mp hw with rfl | hw
      · exact absurd hwp hpq
      · exact ih hval' ⟨w, hw, hwk, hwp⟩

theorem effectiveCount_pos_of_mem {k : Str} {t now ttl : Nat}
    {m : List (Str × Nat)} (hmem : (k, t) ∈ m)
    (heff : durationSince now t < ttl) : 1 ≤ effectiveCount now ttl m := by
  have hmf : (k, t) ∈ m.filter (fun p => durationSince now p.2 < ttl) :=
    List.mem_filter.mpr ⟨hmem, by simpa using heff⟩
  have := List.length_pos_of_mem hmf
  simpa [effectiveCount] using this

theorem effectiveCount_ttl_zero (now : Nat) (m : List (Str × Nat)) :
    effectiveCount now 0 m = 0 := by
  simp [effectiveCount, List.filter_eq_nil_iff]

theorem cleanup_members (st : RoomState) (now ttl : Nat) :
    (Room.cleanup st now ttl).1.members
      = st.members.filter (fun p => durationSince now p.2 < ttl) := by
  simp only [Room.cleanup, Room.sendCountIfDiff]
  split
  · split <;> rfl
  · rfl

/-! ## Claim theorems -/

/-- C4: `Room::hb` updates `members[sid]` to `now` when `sid` is present
(leaving every other key unchanged) and leaves the members map entirely
unchanged when `sid` is absent; in both cases the `count_watch` value is
left unchanged — a heartbeat never publishes a count. -/
theorem hb_frame_effect (st : RoomState) (sid : Str) (now : Nat) :
    (Room.hb st sid now).watch = st.watch ∧
    (hget sid st.members = none → Room.hb st sid now = st) ∧
    ((hget sid st.members).isSome →
      hget sid (Room.hb st sid now).members = some now) ∧
    (∀ k, k ≠ sid → hget k (Room.hb st sid now).members = hget k st.members) := by
  refine ⟨rfl, ?_, ?_, ?_⟩
  · intro h
    show ({ st with members := modifyValue sid (fun _ => now) st.members }
      : RoomState) = st
    rw [modifyValue_of_hget_none h]
  · intro h
    obtain ⟨w, hw⟩ := Option.isSome_iff_exists.mp h
    show hget sid (modifyValue sid (fun _ => now) st.members) = some now
    rw [hget_modifyValue_self, hw]
    rfl
  · intro k hk
    exact hget_modifyValue_ne hk _ _

/-- Concrete instance of the C4 frame conditions: a heartbeat for a
present member rewrites its timestamp, and one for an absent member is a
no-op. -/
theorem hb_frame_effect_witness :
    hget "a".data
        (Room.hb ⟨[("a".data, 1), ("b".data, 2)], 5⟩ "a".data 9).members
      = some 9 ∧
    Room.hb ⟨[("b".data, 2)], 5⟩ "a".data 9 = ⟨[("b".data, 2)], 5⟩ :=
  ⟨(hb_frame_effect ⟨[("a".data, 1), ("b".data, 2)], 5⟩ "a".data 9).2.2.1
      (by decide),
   (hb_frame_effect ⟨[("b".data, 2)], 5⟩ "a".data 9).2.1 (by decide)⟩

/-- C3: with `sid` joined at `t0` and TTL `τ > 0`, a heartbeat at any
`t ≥ t0` sets the member's last-seen to `t`, and at every `t_now` with
`t_now − t < τ` the member is still counted by `effective_count` and
retained (with last-seen `t`) by `cleanup`: the heartbeat extends
liveness to at least `t + τ`. -/
theorem heartbeat_preserves_presence (st : RoomState) (sid : Str)
    (t0 t τ tnow : Nat) (hjoined : hget sid st.members = some t0)
    (_h0 : t0 ≤ t) (_hτ : 0 < τ) (hfresh : durationSince tnow t < τ) :
    hget sid (Room.hb st sid t).members = some t ∧
    1 ≤ effectiveCount tnow τ (Room.hb st sid t).members ∧
    hget sid ((Room.cleanup (Room.hb st sid t) tnow τ).1).members
      = some t := by
  have hmem' : hget sid (Room.hb st sid t).members = some t := by
    show hget sid (modifyValue sid (fun _ => t) st.members) = some t
    rw [hget_modifyValue_self, hjoined]
    rfl
  refine ⟨hmem', ?_, ?_⟩
  · exact effectiveCount_pos_of_mem (hget_mem hmem') hfresh
  · rw [cleanup_members]
    exact hget_filter _ (modifyValue_const_val _)
      ⟨(sid, t), hget_mem hmem', rfl, by simpa using hfresh⟩

/-- Concrete instance of C3: joined at 0, heartbeat at 25 with TTL 30,
still present and counted at 31. -/
theorem heartbeat_preserves_presence_witness :
    hget "s".data (Room.hb ⟨[("s".data, 0)], 1⟩ "s".data 25).members
      = some 25 ∧
    1 ≤ effectiveCount 31 30 (Room.hb ⟨[("s".data, 0)], 1⟩ "s".data 25).members ∧
    hget "s".data
        ((Room.cleanup (Room.hb ⟨[("s".data, 0)], 1⟩ "s".data 25) 31 30).1).members
      = some 25 :=
  heartbeat_preserves_presence ⟨[("s".data, 0)], 1⟩ "s".data 0 25 30 31
    (by decide) (by decide) (by decide) (by decide)

/-- C5: `Room::cleanup` keeps exactly the members with
`now − last_seen < ttl`, returns the number of retained members, and the
watch value moves only when the retained membership differs from the
original one and the new count differs from the last published value, in
which case the published value is the returned count. -/
theorem cleanup_spec (st : RoomState) (now ttl : Nat) :
    (Room.cleanup st now ttl).1.members
      = st.members.filter (fun p => durationSince now p.2 < ttl) ∧
    (Room.cleanup st now ttl).2
      = (st.members.filter (fun p => durationSince now p.2 < ttl)).length ∧
    ((Room.cleanup st now ttl).1.watch ≠ st.watch →
      (Room.cleanup st now ttl).1.members ≠ st.members ∧
      (Room.cleanup st now ttl).2 ≠ st.watch ∧
      (Room.cleanup st now ttl).1.watch = (Room.cleanup st now ttl).2) := by
  have hidem :
      (st.members.filter (fun p => durationSince now p.2 < ttl)).filter
          (fun p => durationSince now p.2 < ttl)
        = st.members.filter (fun p => durationSince now p.2 < ttl) :=
    List.filter_eq_self.mpr (fun a ha => (List.mem_filter.mp ha).2)
  refine ⟨cleanup_members st now ttl, ?_, ?_⟩
  · show effectiveCount now ttl
        (st.members.filter (fun p => durationSince now p.2 < ttl))
      = _
    rw [effectiveCount, hidem]
  · intro hw
    by_cases hch :
        (st.members.filter (fun p => durationSince now p.2 < ttl)).length
          = st.members.length
    · exact absurd (by
        show (Room.cleanup st now ttl).1.watch = st.watch
        simp only [Room.cleanup, Room.sendCountIfDiff]
        rw [if_neg (not_not_intro hch)]) hw
    · by_cases hdiff : st.watch
          = effectiveCount now ttl
              (st.members.filter (fun p => durationSince now p.2 < ttl))
      · exact absurd (by
          show (Room.cleanup st now ttl).1.watch = st.watch
          simp only [Room.cleanup, Room.sendCountIfDiff]
          rw [if_pos hch, if_neg (not_not_intro hdiff)]) hw
      · have hdiff2 : (Room.cleanup st now ttl).2 ≠ st.watch :=
          fun heq => hdiff heq.symm
        refine ⟨?_, hdiff2, ?_⟩
        · rw [cleanup_members]
          intro heq
          exact hch (congrArg List.length heq)
        · show (Room.cleanup st now ttl).1.watch = (Room.cleanup st now ttl).2
          simp only [Room.cleanup, Room.sendCountIfDiff]
          rw [if_pos hch, if_pos hdiff]

/-- Concrete instance of C5's publication condition: cleaning up an
expired member shrinks the membership and republishes the new count. -/
theorem cleanup_spec_witness :
    (Room.cleanup ⟨[("a".data, 0)], 1⟩ 100 10).1.members
        ≠ [("a".data, 0)] ∧
    (Room.cleanup ⟨[("a".data, 0)], 1⟩ 100 10).2 ≠ 1 ∧
    (Room.cleanup ⟨[("a".data, 0)], 1⟩ 100 10).1.watch
      = (Room.cleanup ⟨[("a".data, 0)], 1⟩ 100 10).2 :=
  (cleanup_spec ⟨[("a".data, 0)], 1⟩ 100 10).2.2 (by decide)

/-- C10: `Room::join` records `members[sid] = now`; the count it returns
(which `handle_ws` forwards as the hello frame's `count` field) is at
least 1 iff `ttl > 0`; in particular with `ttl = 0` the hello count is 0
even though the member was just inserted. -/
theorem join_spec (st : RoomState) (sid : Str) (now ttl : Nat) :
    hget sid (Room.join st sid now ttl).1.members = some now ∧
    (1 ≤ (Room.join st sid now ttl).2 ↔ 0 < ttl) ∧
    (ttl = 0 → hello_count st sid now ttl = 0) := by
  have hmembers : (Room.join st sid now ttl).1.members
      = (sid, now) :: st.members.filter (fun p => ¬ p.1 = sid) := by
    simp only [Room.join, Room.updateCountIfChanged, Room.sendCountIfDiff]
    split <;> rfl
  have hcount : (Room.join st sid now ttl).2
      = effectiveCount now ttl
          ((sid, now) :: st.members.filter (fun p => ¬ p.1 = sid)) := rfl
  refine ⟨?_, ?_, ?_⟩
  · rw [hmembers]
    simp [hget]
  · constructor
    · intro h1
      by_contra httl
      have h0 : ttl = 0 := Nat.eq_zero_of_not_pos httl
      rw [hcount, h0, effectiveCount_ttl_zero] at h1
      omega
    · intro httl
      rw [hcount]
      exact effectiveCount_pos_of_mem (List.mem_cons_self _ _)
        (by simpa [durationSince] using httl)
  · intro h0
    show (Room.join st sid now ttl).2 = 0
    rw [hcount, h0, effectiveCount_ttl_zero]

/-- Concrete instance of C10: with `ttl = 0` the hello count is 0 right
after the join inserted the member. -/
theorem join_spec_witness : hello_count ⟨[], 0⟩ "a".data 5 0 = 0 :=
  (join_spec ⟨[], 0⟩ "a".data 5 0).2.2 rfl

theorem toFinset_pair_card (s t : Str) :
    ([s, t].toFinset).card = if s = t then 1 else 2 := by
  by_cases h : s = t
  · simp [h]
  · rw [if_neg h]
    simp only [List.toFinset_cons, List.toFinset_nil, insert_emptyc_eq]
    rw [Finset.card_insert_of_not_mem (by simpa using h)]
    rfl

/-- C7: in the memory `MetaStore`, two records with distinct session ids
contribute 2 to `unique_session_count` and two records sharing one
session id contribute 1; starting from two records with distinct session
ids, a `set_session_id` that makes one record's session id equal to the
other's decreases `unique_session_count` by exactly 1. -/
theorem unique_session_count_spec (a b : Str) (ma mb : SocketMetadata)
    (t : Nat) (hab : a ≠ b) :
    (ma.session_id ≠ mb.session_id →
      MemoryMetaStore.unique_session_count [(a, ma), (b, mb)] = 2) ∧
    (ma.session_id = mb.session_id →
      MemoryMetaStore.unique_session_count [(a, ma), (b, mb)] = 1) ∧
    (ma.session_id ≠ mb.session_id →
      MemoryMetaStore.unique_session_count
          (MemoryMetaStore.set_session_id [(a, ma), (b, mb)] a
            mb.session_id t)
        = MemoryMetaStore.unique_session_count [(a, ma), (b, mb)] - 1) := by
  have hcount : MemoryMetaStore.unique_session_count [(a, ma), (b, mb)]
      = if ma.session_id = mb.session_id then 1 else 2 := by
    show ([ma.session_id, mb.session_id].toFinset).card = _
    exact toFinset_pair_card _ _
  have hcollapsed : MemoryMetaStore.set_session_id [(a, ma), (b, mb)] a
        mb.session_id t
      = [(a, { ma with session_id := mb.session_id, updated_at_ms := t }),
         (b, mb)] := by
    simp [MemoryMetaStore.set_session_id, modifyValue, Ne.symm hab]
  refine ⟨fun hne => by rw [hcount, if_neg hne], fun he => by
    rw [hcount, if_pos he], fun hne => ?_⟩
  rw [hcollapsed, hcount, if_neg hne]
  show ([mb.session_id, mb.session_id].toFinset).card = 2 - 1
  rw [toFinset_pair_card, if_pos rfl]

/-- Concrete instance of C7: distinct sessions count 2; collapsing them
by `set_session_id` yields 2 − 1. -/
theorem unique_session_count_spec_witness :
    MemoryMetaStore.unique_session_count
        [("c1".data, ⟨"c1".data, "s1".data, 0, 0, []⟩),
         ("c2".data, ⟨"c2".data, "s2".data, 0, 0, []⟩)] = 2 ∧
    MemoryMetaStore.unique_session_count
        (MemoryMetaStore.set_session_id
          [("c1".data, ⟨"c1".data, "s1".data, 0, 0, []⟩),
           ("c2".data, ⟨"c2".data, "s2".data, 0, 0, []⟩)]
          "c1".data "s2".data 7)
      = MemoryMetaStore.unique_session_count
          [("c1".data, ⟨"c1".data, "s1".data, 0, 0, []⟩),
           ("c2".data, ⟨"c2".data, "s2".data, 0, 0, []⟩)] - 1 :=
  ⟨(unique_session_count_spec "c1".data "c2".data
      ⟨"c1".data, "s1".data, 0, 0, []⟩ ⟨"c2".data, "s2".data, 0, 0, []⟩ 7
      (by decide)).1 (by decide),
   (unique_session_count_spec "c1".data "c2".data
      ⟨"c1".data, "s1".data, 0, 0, []⟩ ⟨"c2".data, "s2".data, 0, 0, []⟩ 7
      (by decide)).2.2 (by decide)⟩

/-- C8: within one calendar day (a fixed `day` key),
`update_online_stats` sets `max_online[day]` to the maximum of the
existing value and `online` — so `max_online[day]` is non-decreasing call
after call — and increments `total_connects[day]` by exactly 1 on each
call (an absent counter counting as 0). -/
theorem update_online_stats_spec (st : OnlineStats) (day : Str)
    (online : Nat) :
    hget day (update_online_stats st day online).max_online
      = some (match hget day st.max_online with
              | some cur => max cur online
              | none => online) ∧
    (∀ cur, hget day st.max_online = some cur →
      ∃ v, hget day (update_online_stats st day online).max_online = some v
        ∧ cur ≤ v) ∧
    hget day (update_online_stats st day online).total_connects
      = some ((hget day st.total_connects).getD 0 + 1) := by
  have hmax : hget day (update_online_stats st day online).max_online
      = some (match hget day st.max_online with
              | some cur => max cur online
              | none => online) := by
    show hget day
        (match hget day st.max_online with
         | some cur => if cur < online then hset day online st.max_online
                       else st.max_online
         | none => hset day online st.max_online) = _
    cases h : hget day st.max_online with
    | none => dsimp only; rw [hget_hset_self]
    | some cur =>
      dsimp only
      by_cases hlt : cur < online
      · rw [if_pos hlt, hget_hset_self, Nat.max_eq_right (Nat.le_of_lt hlt)]
      · rw [if_neg hlt, h, Nat.max_eq_left (Nat.le_of_not_lt hlt)]
  refine ⟨hmax, ?_, ?_⟩
  · intro cur hcur
    refine ⟨max cur online, ?_, Nat.le_max_left _ _⟩
    rw [hmax, hcur]
  · show hget day (hincr day 1 st.total_connects) = _
    rw [hincr, hget_hset_self]

/-- Concrete instance of C8: an existing daily maximum never decreases
across a flush. -/
theorem update_online_stats_spec_witness :
    ∃ v, hget "d".data
        (update_online_stats ⟨[("d".data, 3)], [("d".data, 5)]⟩ "d".data
          7).max_online = some v ∧ 3 ≤ v :=
  (update_online_stats_spec ⟨[("d".data, 3)], [("d".data, 5)]⟩ "d".data
    7).2.1 3 (by decide)

/-- Session state used by the C1 counterexample: one connection `conn1`
whose stored session id is `a`, one published online value. -/
def c1State : SessionState :=
  { room := ⟨[], 0⟩,
    meta := [("conn1".data, ⟨"conn1".data, "a".data, 0, 0, []⟩)],
    online := 1 }

/-- The inbound frame of the C1 counterexample, the JSON object
`{"type":"updateSid","sessionId":"b"}` with the camelCase type tag the
spec describes. -/
def c1Frame : JObj :=
  [("type".data, JVal.jstr "updateSid".data),
   ("sessionId".data, JVal.jstr "b".data)]

/-- C1 (counterexample): the frame `{"type":"updateSid","sessionId":"b"}`
with the camelCase type tag does not deserialize to `InMsg::UpdateSid`
(serde's `rename_all = "lowercase"` tags the variant `updatesid`), so the
session handler ignores it and leaves the state unchanged, while the
behaviour the claim demands — `set_session_id` plus a republished online
count — would have changed the state. -/
theorem update_sid_camel_frame_ignored :
    parse_in_msg c1Frame = none ∧
    handle_text_frame "conn1".data 5 0 c1State c1Frame = c1State ∧
    handle_text_frame "conn1".data 5 0 c1State c1Frame
      ≠ { c1State with
            meta := MemoryMetaStore.set_session_id c1State.meta
              "conn1".data "b".data 5,
            online := MemoryMetaStore.unique_session_count
              (MemoryMetaStore.set_session_id c1State.meta
                "conn1".data "b".data 5) } := by
  refine ⟨rfl, rfl, ?_⟩
  decide

/-- C1 (amended): an inbound text frame that deserializes to
`InMsg::UpdateSid` — its JSON object carries the all-lowercase type tag
`updatesid` together with a camelCase string field `sessionId` — is not
ignored: the session calls `meta.set_session_id` with the connection's
identity and the carried session id, recomputes the global
`unique_session_count`, and publishes it on the online latch. -/
theorem update_sid_frame_spec (st : SessionState) (sid s : Str)
    (now_ms nowi : Nat) :
    handle_text_frame sid now_ms nowi st
        [("type".data, JVal.jstr "updatesid".data),
         ("sessionId".data, JVal.jstr s)]
      = { st with
            meta := MemoryMetaStore.set_session_id st.meta sid s now_ms,
            online := MemoryMetaStore.unique_session_count
              (MemoryMetaStore.set_session_id st.meta sid s now_ms) } := by
  rfl

/-- C6: with a configured non-empty whitelist whose entries are
trim-normalized (exactly what `ALLOWED_ORIGINS` parsing produces), an
upgrade request whose Origin header is absent or empty is rejected with
403 before upgrading, unless the whitelist contains the entry `*`, in
which case it is admitted. -/
theorem absent_origin_spec (wl : List Str) (room : Str)
    (origin : Option Str) (htrim : ∀ e ∈ wl, trim e = e) (hne : wl ≠ [])
    (hroom : is_valid_room room = true)
    (hblank : origin = none ∨ ∃ s, origin = some s ∧ trim s = []) :
    ws_route room origin (some wl)
      = if "*".data ∈ wl then WsRouteDecision.upgrade
        else WsRouteDecision.forbidden := by
  have hstar : (wl.any (fun s => trim s = "*".data))
      = decide ("*".data ∈ wl) := by
    by_cases hmem : "*".data ∈ wl
    · rw [decide_eq_true hmem]
      exact List.any_eq_true.mpr ⟨_, hmem, by
        rw [htrim _ hmem]
        exact decide_eq_true rfl⟩
    · rw [decide_eq_false hmem]
      refine List.any_eq_false.mpr ?_
      intro e he
      simp only [decide_eq_true_eq]
      intro htr
      have he' : e = "*".data := (htrim e he).symm.trans htr
      exact hmem (he' ▸ he)
  have hallowed : origin_allowed origin wl = decide ("*".data ∈ wl) := by
    unfold origin_allowed
    rw [hstar]
    by_cases hmem : "*".data ∈ wl
    · rw [decide_eq_true hmem, if_pos rfl]
    · rw [decide_eq_false hmem, if_neg (fun h => nomatch h)]
      rcases hblank with rfl | ⟨s, rfl, hs⟩
      · rfl
      · have hemp : (trim s).isEmpty = true := by rw [hs]; rfl
        dsimp only
        rw [if_pos hemp]
  have hnemp : wl.isEmpty = false := by
    cases wl with
    | nil => exact absurd rfl hne
    | cons x xs => rfl
  unfold ws_route
  rw [if_neg (by rw [hroom]; exact fun h => h rfl)]
  dsimp only
  by_cases hmem : "*".data ∈ wl
  · rw [if_pos hmem]
    rw [if_neg (fun hc => hc.2 (by rw [hallowed, decide_eq_true hmem]))]
  · rw [if_neg hmem]
    have h1 : ¬ wl.isEmpty = true := by
      rw [hnemp]
      exact fun h => nomatch h
    have h2 : ¬ origin_allowed origin wl = true := by
      rw [hallowed, decide_eq_false hmem]
      exact fun h => nomatch h
    rw [if_pos ⟨h1, h2⟩]

/-- Concrete instance of C6: a `*` whitelist admits an absent Origin, a
non-star whitelist rejects it with 403. -/
theorem absent_origin_spec_witness :
    (ws_route "a".data none (some ["*".data])
      = if "*".data ∈ ["*".data] then WsRouteDecision.upgrade
        else WsRouteDecision.forbidden) ∧
    (ws_route "a".data none (some ["https://example.com".data])
      = if "*".data ∈ ["https://example.com".data] then
          WsRouteDecision.upgrade
        else WsRouteDecision.forbidden) :=
  ⟨absent_origin_spec ["*".data] "a".data none (by decide) (by decide)
      (by decide) (Or.inl rfl),
   absent_origin_spec ["https://example.com".data] "a".data none
      (by decide) (by decide) (by decide) (Or.inl rfl)⟩

theorem item_example8443 (port : Option Nat) (canonical : CanonOrigin) :
    origin_item_matches "example.com".data port canonical
        "example.com:8443".data
      = decide (port = some 8443) := by
  cases port with
  | none => rfl
  | some p =>
    show decide (p = 8443) = decide (some p = some 8443)
    rw [decide_eq_decide]
    exact ⟨fun h => by rw [h], fun h => Option.some.inj h⟩

/-- C2: the origin-admission predicate on the whitelist-entry families of
the spec: a URL entry `https://example.com` admits the origins that
canonicalize to it (default port 443 made explicit) and nothing else; a
wildcard entry `*.example.com` admits the domain and its subdomains; a
`host:port` entry `example.com:8443` admits an `example.com` origin
exactly when its default-resolved port is 8443. -/
theorem origin_allowed_cases :
    (origin_allowed (some "https://example.com".data)
        ["https://example.com".data] = true ∧
     origin_allowed (some "https://example.com:443".data)
        ["https://example.com".data] = true ∧
     origin_allowed (some "http://example.com".data)
        ["https://example.com".data] = false ∧
     origin_allowed (some "https://sub.example.com".data)
        ["https://example.com".data] = false) ∧
    (origin_allowed (some "https://a.example.com".data)
        ["*.example.com".data] = true ∧
     origin_allowed (some "https://example.com".data)
        ["*.example.com".data] = true ∧
     origin_allowed (some "https://evil.com".data)
        ["*.example.com".data] = false) ∧
    (∀ (o : Str) (u : UrlParts), parse_url (trim o) = some u →
      u.host = "example.com".data →
      (origin_allowed (some o) ["example.com:8443".data] = true ↔
        port_or_known_default u = some 8443)) := by
  refine ⟨⟨by decide, by decide, by decide, by decide⟩,
    ⟨by decide, by decide, by decide⟩, ?_⟩
  intro o u hp hhost
  have hne : (trim o).isEmpty = false := by
    cases htr : trim o with
    | nil =>
      rw [htr] at hp
      have hnil : parse_url ([] : Str) = none := rfl
      rw [hnil] at hp
      exact absurd hp (fun h => nomatch h)
    | cons c cs => rfl
  have hstar : (["example.com:8443".data].any
      (fun s => trim s = "*".data)) = false := by decide
  unfold origin_allowed
  rw [if_neg (by rw [hstar]; exact fun h => nomatch h)]
  dsimp only
  rw [if_neg (by rw [hne]; exact fun h => nomatch h)]
  rw [hp]
  dsimp only
  rw [hhost]
  have hlow : toLowerS "example.com".data = "example.com".data := by decide
  rw [hlow]
  simp only [List.any_cons, List.any_nil, Bool.or_false]
  rw [item_example8443]
  exact decide_eq_true_iff

/-- Concrete instance of C2's port rule: `https://example.com:8443` is
admitted by the whitelist `example.com:8443` exactly because its resolved
port is 8443. -/
theorem origin_allowed_cases_witness :
    origin_allowed (some "https://example.com:8443".data)
        ["example.com:8443".data] = true
      ↔ port_or_known_default ⟨"https".data, "example.com".data, some 8443⟩
          = some 8443 :=
  origin_allowed_cases.2.2 "https://example.com:8443".data
    ⟨"https".data, "example.com".data, some 8443⟩ (by decide) rfl

/-- C9: `GET /v1/rooms/active` returns only rooms whose effective count
is positive, with `path` and `title` equal to the room name, sorted by
count descending then room name ascending, and truncated to
`min(limit, 100)` entries (`limit` defaulting to 10 when absent), never
more than the number of active rooms. -/
theorem top_active_rooms_spec (limitQ : Option Nat)
    (rooms : List (Str × List (Str × Nat))) (now ttl : Nat) :
    (∀ r ∈ top_active_rooms limitQ rooms now ttl,
      0 < r.count ∧ r.path = r.room ∧ r.title = r.room) ∧
    List.Sorted topRoomOrd (top_active_rooms limitQ rooms now ttl) ∧
    (top_active_rooms limitQ rooms now ttl).length
      = min (min (limitQ.getD 10) 100)
          (snapshot_counts rooms now ttl).length := by
  have hdef : top_active_rooms limitQ rooms now ttl
      = ((List.insertionSort byCountDescNameAsc
            (snapshot_counts rooms now ttl)).take
          (min (limitQ.getD 10) 100)).map
        (fun p => { room := p.1, count := p.2, path := p.1,
                    title := p.1 }) := rfl
  refine ⟨?_, ?_, ?_⟩
  · intro r hr
    rw [hdef] at hr
    rcases List.mem_map.mp hr with ⟨p, hp, rfl⟩
    refine ⟨?_, rfl, rfl⟩
    have hpS : p ∈ List.insertionSort byCountDescNameAsc
        (snapshot_counts rooms now ttl) :=
      (List.take_sublist _ _).subset hp
    have hpL : p ∈ snapshot_counts rooms now ttl :=
      (List.perm_insertionSort byCountDescNameAsc _).subset hpS
    have hpos := (List.mem_filter.mp hpL).2
    simpa using hpos
  · rw [hdef]
    have hs : List.Pairwise byCountDescNameAsc
        (List.insertionSort byCountDescNameAsc
          (snapshot_counts rooms now ttl)) :=
      List.sorted_insertionSort byCountDescNameAsc _
    have htake : List.Pairwise byCountDescNameAsc
        ((List.insertionSort byCountDescNameAsc
            (snapshot_counts rooms now ttl)).take
          (min (limitQ.getD 10) 100)) :=
      List.Pairwise.sublist (List.take_sublist _ _) hs
    exact List.pairwise_map.mpr (htake.imp (fun h => h))
  · rw [hdef, List.length_map, List.length_take,
      (List.perm_insertionSort byCountDescNameAsc _).length_eq]

/-- Concrete instance of C9: with two active rooms the busier room comes
first, carries its name as path and title, and has a positive count. -/
theorem top_active_rooms_spec_witness :
    0 < (TopRoom.mk "a".data 2 "a".data "a".data).count ∧
    (TopRoom.mk "a".data 2 "a".data "a".data).path
      = (TopRoom.mk "a".data 2 "a".data "a".data).room ∧
    (TopRoom.mk "a".data 2 "a".data "a".data).title
      = (TopRoom.mk "a".data 2 "a".data "a".data).room :=
  (top_active_rooms_spec none
      [("b".data, [("x".data, 9)]),
       ("a".data, [("y".data, 9), ("z".data, 9)])] 10 5).1
    (TopRoom.mk "a".data 2 "a".data "a".data) (by decide)

end ActiveNow
